import Mathlib

/-!
Verification of the quote-matching and span-to-label engine of
`speech_detection.models.baselines.quote_baseline` (class `QuoteBaselineModel`).

The Python source is shallowly embedded: paragraph text and tokens are lists
of characters, the quote stack is an explicit list (head = stack top, which is
the *end* of the Python list, the side `append`/`pop` operate on), spans are a
structure mirroring the 7-tuples of `_find_quote_spans`, and the per-token /
per-paragraph loops are folds.
-/

namespace QuoteBaseline

/-- The straight double quote character `"` (U+0022). -/
def STRAIGHT_DOUBLE_QUOTE : Char := Char.ofNat 34

/-- The straight single quote character (U+0027). -/
def STRAIGHT_SINGLE_QUOTE : Char := Char.ofNat 39

/-- Left curly double quote (U+201C). -/
def LEFT_DOUBLE_QUOTE : Char := Char.ofNat 0x201c

/-- Right curly double quote (U+201D). -/
def RIGHT_DOUBLE_QUOTE : Char := Char.ofNat 0x201d

/-- Left curly single quote (U+2018). -/
def LEFT_SINGLE_QUOTE : Char := Char.ofNat 0x2018

/-- Right curly single quote (U+2019). -/
def RIGHT_SINGLE_QUOTE : Char := Char.ofNat 0x2019

/-- Left guillemet (U+00AB). -/
def LEFT_GUILLEMET : Char := Char.ofNat 0x00ab

/-- Right guillemet (U+00BB). -/
def RIGHT_GUILLEMET : Char := Char.ofNat 0x00bb

/-- Low double quote (U+201E); appears in the module's `QUOTE_CHARS` regex
class but in neither `OPENING_QUOTES` nor `CLOSING_QUOTES`. -/
def LOW_DOUBLE_QUOTE : Char := Char.ofNat 0x201e

/-- Embeds the frozenset `OPENING_QUOTES` (membership list). -/
def OPENING_QUOTES : List Char :=
  [STRAIGHT_DOUBLE_QUOTE, LEFT_DOUBLE_QUOTE, STRAIGHT_SINGLE_QUOTE,
   LEFT_GUILLEMET, LEFT_SINGLE_QUOTE]

/-- Embeds the frozenset `CLOSING_QUOTES` (membership list). -/
def CLOSING_QUOTES : List Char :=
  [STRAIGHT_DOUBLE_QUOTE, RIGHT_DOUBLE_QUOTE, STRAIGHT_SINGLE_QUOTE,
   RIGHT_GUILLEMET, RIGHT_SINGLE_QUOTE]

/-- Embeds `ALL_QUOTES = OPENING_QUOTES | CLOSING_QUOTES` (membership list;
as a set of characters this is exactly the union). -/
def ALL_QUOTES : List Char :=
  [STRAIGHT_DOUBLE_QUOTE, LEFT_DOUBLE_QUOTE, STRAIGHT_SINGLE_QUOTE,
   LEFT_GUILLEMET, LEFT_SINGLE_QUOTE,
   RIGHT_DOUBLE_QUOTE, RIGHT_GUILLEMET, RIGHT_SINGLE_QUOTE]

/-- The character class of the module-level `QUOTE_PATTERN` regex, built from
`QUOTE_CHARS = "\"'“”‘’«»„“"`.
Note it strictly contains `ALL_QUOTES`: it also has U+201E. -/
def QUOTE_PATTERN_CHARS : List Char :=
  [STRAIGHT_DOUBLE_QUOTE, STRAIGHT_SINGLE_QUOTE, LEFT_DOUBLE_QUOTE,
   RIGHT_DOUBLE_QUOTE, LEFT_SINGLE_QUOTE, RIGHT_SINGLE_QUOTE,
   LEFT_GUILLEMET, RIGHT_GUILLEMET, LOW_DOUBLE_QUOTE]

/-- `QUOTE_PATTERN.search(text)` of the source: true iff some character of
`text` is in the regex character class. -/
def quote_pattern_search (text : List Char) : Bool :=
  text.any (fun c => c ∈ QUOTE_PATTERN_CHARS)

/-- The list `[STRAIGHT_SINGLE_QUOTE, RIGHT_SINGLE_QUOTE, LEFT_SINGLE_QUOTE]`
the source tests membership in for apostrophe handling. -/
def SINGLE_QUOTE_FAMILY : List Char :=
  [STRAIGHT_SINGLE_QUOTE, RIGHT_SINGLE_QUOTE, LEFT_SINGLE_QUOTE]

/-- Embeds Python `s.isalpha()` on the alphabetic content relevant here:
nonempty and every character a letter.  The engine only ever applies it to
token remainders; the claims exercise it on ASCII letters, for which
`Char.isAlpha` agrees with Python. -/
def pyIsAlpha (s : List Char) : Bool :=
  !s.isEmpty && s.all Char.isAlpha

/-- `QuoteBaselineConfig` of `speech_detection.models.protocols` (the fields
the engine reads). -/
structure QuoteBaselineConfig where
  speech_label : String := "DIRECT"
  handle_multi_paragraph : Bool := true
  handle_nested : Bool := true
deriving Repr, DecidableEq

/-- A paragraph record: the `text` and `tokens` entries the engine reads. -/
structure Paragraph where
  text : List Char
  tokens : List (List Char)
deriving Repr, DecidableEq

instance : Inhabited Paragraph := ⟨⟨[], []⟩⟩

/-- One element of the span list of `_find_quote_spans`:
`(start_para, end_para, start_token, end_token, quote_char, is_nested,
nesting_level)`.  `end_token = -1` is the unclosed sentinel, hence `Int`. -/
structure Span where
  start_para : Nat
  end_para : Nat
  start_token : Nat
  end_token : Int
  quote_char : Char
  is_nested : Bool
  nesting_level : Nat
deriving Repr, DecidableEq

/-- A stack entry `(para_idx, token_idx, quote_char)`. -/
abbrev StackEntry := Nat × Nat × Char

/-- The mutable state threaded through `_find_quote_spans`: the quote stack
(head of the list = top of the Python stack) and the spans accumulated so
far (in Python list order). -/
structure MatchState where
  stack : List StackEntry
  spans : List Span
deriving Repr, DecidableEq

/-- The raw-text context check at the end of `_is_apostrophe`: classify as
apostrophe when the character sits strictly inside the text, preceded by a
letter and followed by a letter or by `s` (the source's second branch
`prev_char == 's' and next_char.isalpha()` is subsumed by the first, since
`'s'` is itself a letter, but is kept as written). -/
def apostrophe_context (char_idx : Nat) (text : List Char) : Bool :=
  if char_idx > 0 ∧ char_idx < text.length - 1 then
    let prev_char := text.getD (char_idx - 1) ' '
    let next_char := text.getD (char_idx + 1) ' '
    if prev_char.isAlpha ∧ (next_char.isAlpha ∨ next_char = 's') then true
    else if prev_char = 's' ∧ next_char.isAlpha then true
    else false
  else false

/-- Embeds `QuoteBaselineModel._is_apostrophe`.  `tokenVerdict = some b`
means one of the `return` statements inside the
`if len(token) > 1 and char in token` block fired; `none` means control fell
through to the raw-text context check.  `token_idx` is a `Nat` because every
call site passes an enumeration index (the source's `token_idx < 0` guard is
vacuous there). -/
def is_apostrophe (char : Char) (char_idx : Nat) (text : List Char)
    (token_idx : Nat) (tokens : List (List Char)) : Bool :=
  if char ∉ SINGLE_QUOTE_FAMILY then false
  else if token_idx ≥ tokens.length then false
  else
    let token := tokens.getD token_idx []
    let tokenVerdict : Option Bool :=
      if token.length > 1 ∧ char ∈ token then
        if token.head? = some char ∧ token.length > 2 then
          -- 'word: a quote delimiter when the rest is a word, else fall through
          let rest := token.tail
          if pyIsAlpha rest ∨ pyIsAlpha (rest.filter (fun c => c ≠ '-')) then
            some false
          else none
        else if token.getLast? = some char ∧ token.length > 2 then some true
        else if char ∈ token ∧ token.length > 1 then some true
        else none
      else none
    match tokenVerdict with
    | some b => b
    | none => apostrophe_context char_idx text

/-- Embeds `QuoteBaselineModel._process_quote_token` as a pure state
transformer.  The Python stack's `pop()` end is the head of our list. -/
def process_quote_token (quote_char : Char) (token_idx para_idx : Nat)
    (st : MatchState) : MatchState :=
  let is_opening := quote_char ∈ OPENING_QUOTES
  let is_closing := quote_char ∈ CLOSING_QUOTES
  if is_closing ∧ ¬ st.stack.isEmpty then
    match st.stack with
    | [] => st  -- unreachable: the guard has the stack non-empty
    | (open_para, open_token, open_char) :: rest =>
      let nesting_level := rest.length
      { stack := rest,
        spans := st.spans ++
          [⟨open_para, para_idx, open_token, token_idx, open_char,
            decide (nesting_level > 0), nesting_level⟩] }
  else if is_opening then
    { st with stack := (para_idx, token_idx, quote_char) :: st.stack }
  else st

/-- Embeds `QuoteBaselineModel._extract_quotes_from_token`. -/
def extract_quotes_from_token (token : List Char) : List Char :=
  token.filter (fun q => q ∈ ALL_QUOTES)

/-- The body of the single-quote apostrophe filter in `_find_quote_spans`
case 2: the quote character is skipped iff `text.find(quote_char)` (first
occurrence) succeeds and `_is_apostrophe` says apostrophe. -/
def apostrophe_skip (quote_char : Char) (text : List Char)
    (token_idx : Nat) (tokens : List (List Char)) : Bool :=
  match text.findIdx? (fun c => c = quote_char) with
  | some char_idx => is_apostrophe quote_char char_idx text token_idx tokens
  | none => false

/-- Processing of one extracted quote character inside case 2 of
`_find_quote_spans`: apostrophes (per `apostrophe_skip`) are skipped,
everything else goes to `_process_quote_token`. -/
def process_extracted_char (text : List Char) (tokens : List (List Char))
    (para_idx token_idx : Nat) (st : MatchState) (quote_char : Char) :
    MatchState :=
  if quote_char ∈ SINGLE_QUOTE_FAMILY then
    if apostrophe_skip quote_char text token_idx tokens then st
    else process_quote_token quote_char token_idx para_idx st
  else process_quote_token quote_char token_idx para_idx st

/-- Python `token in ALL_QUOTES`: `ALL_QUOTES` is a set of one-character
strings, so this holds iff the token is exactly one quote character. -/
def is_quote_token (token : List Char) : Bool :=
  match token with
  | [c] => c ∈ ALL_QUOTES
  | _ => false

/-- The per-token body of `_find_quote_spans`'s inner loop. -/
def process_token (text : List Char) (tokens : List (List Char))
    (para_idx : Nat) (st : MatchState) (tokenWithIdx : Nat × List Char) :
    MatchState :=
  let token_idx := tokenWithIdx.1
  let token := tokenWithIdx.2
  -- Case 1: standalone quote token
  if is_quote_token token then
    process_quote_token (token.getD 0 ' ') token_idx para_idx st
  -- Case 2: token contains quote characters
  else if token.length > 1 then
    if token.getD 0 ' ' ∈ ALL_QUOTES ∨
       token.getD (token.length - 1) ' ' ∈ ALL_QUOTES then
      (extract_quotes_from_token token).foldl
        (process_extracted_char text tokens para_idx token_idx) st
    else st
  else st

/-- The per-paragraph body of `_find_quote_spans`: fast-path regex skip,
then the token loop. -/
def process_paragraph (st : MatchState) (paraWithIdx : Nat × Paragraph) :
    MatchState :=
  let para_idx := paraWithIdx.1
  let para := paraWithIdx.2
  if ¬ quote_pattern_search para.text then st
  else
    para.tokens.enum.foldl (process_token para.text para.tokens para_idx) st

/-- The paragraph loop of `_find_quote_spans`, before unclosed-quote
finalization. -/
def run_matcher (paragraphs : List Paragraph) : MatchState :=
  paragraphs.enum.foldl process_paragraph ⟨[], []⟩

/-- Embeds `QuoteBaselineModel._find_quote_spans`.  The Python loop
`for open_para, open_token, open_char in quote_stack` walks the stack from
its bottom, i.e. the reverse of our head-is-top list. -/
def find_quote_spans (config : QuoteBaselineConfig)
    (paragraphs : List Paragraph) : List Span :=
  let st := run_matcher paragraphs
  if config.handle_multi_paragraph ∧ ¬ st.stack.isEmpty then
    st.spans ++ st.stack.reverse.map (fun e =>
      ⟨e.1, paragraphs.length - 1, e.2.1, -1, e.2.2, false, 0⟩)
  else st.spans

/-- BIO labels.  The Python strings `"O"`, `f"B-LAB"`, `f"I-LAB"` are
represented structurally. -/
inductive BioLabel where
  | O : BioLabel
  | B : String → BioLabel
  | I : String → BioLabel
deriving Repr, DecidableEq

/-- The label-emission loop of `_spans_to_bio_labels` over the token indices
of one span's in-paragraph range, threading `first_content_token`. -/
def mark_tokens (lab : String) (tokens : List (List Char)) :
    List Nat → List BioLabel → Bool → List BioLabel
  | [], bio, _ => bio
  | ti :: rest, bio, first_content =>
    if is_quote_token (tokens.getD ti []) then
      mark_tokens lab tokens rest bio first_content
    else if first_content then
      mark_tokens lab tokens rest (bio.set ti (BioLabel.B lab)) false
    else
      mark_tokens lab tokens rest (bio.set ti (BioLabel.I lab)) false

/-- `start_tok` of `_spans_to_bio_labels` for span `s` in paragraph
`para_idx`. -/
def span_start_tok (para_idx : Nat) (s : Span) : Nat :=
  if para_idx = s.start_para then s.start_token else 0

/-- The exclusive upper bound `min(end_tok + 1, len(bio_labels))` of the
token loop of `_spans_to_bio_labels` (`len(bio_labels) = len(tokens)`). -/
def span_stop (tokens : List (List Char)) (para_idx : Nat) (s : Span) : Int :=
  let end_tok : Int :=
    if para_idx = s.end_para then
      (if s.end_token ≥ 0 then s.end_token else (tokens.length : Int) - 1)
    else (tokens.length : Int) - 1
  min (end_tok + 1) (tokens.length : Int)

/-- The number of indices walked by the token loop of
`_spans_to_bio_labels`. -/
def span_cnt (tokens : List (List Char)) (para_idx : Nat) (s : Span) : Nat :=
  (span_stop tokens para_idx s - (span_start_tok para_idx s : Int)).toNat

/-- The token-index range `range(start_tok, min(end_tok + 1, len(bio)))`
walked by `_spans_to_bio_labels` for span `s` inside paragraph `para_idx`. -/
def span_range (tokens : List (List Char)) (para_idx : Nat) (s : Span) :
    List Nat :=
  List.range' (span_start_tok para_idx s) (span_cnt tokens para_idx s)

/-- Application of one span to a paragraph's label list
(the inner `for span in para_spans` body of `_spans_to_bio_labels`). -/
def apply_span (lab : String) (tokens : List (List Char)) (para_idx : Nat)
    (bio : List BioLabel) (s : Span) : List BioLabel :=
  mark_tokens lab tokens (span_range tokens para_idx s) bio true

/-- The spans bucketed to paragraph `para_idx`: the `defaultdict` built from
`span[0]` keeps insertion order, so this is a filter on `start_para`. -/
def spans_by_para (spans : List Span) (para_idx : Nat) : List Span :=
  spans.filter (fun s => s.start_para = para_idx)

/-- Embeds `QuoteBaselineModel._spans_to_bio_labels`. -/
def spans_to_bio_labels (config : QuoteBaselineConfig)
    (paragraphs : List Paragraph) (quote_spans : List Span) :
    List (List BioLabel) :=
  paragraphs.enum.map (fun pw =>
    let para_idx := pw.1
    let tokens := pw.2.tokens
    let bio0 := List.replicate tokens.length BioLabel.O
    (spans_by_para quote_spans para_idx).foldl
      (apply_span config.speech_label tokens para_idx) bio0)

/-- The label lists produced by `QuoteBaselineModel.predict_paragraphs`
(one per input paragraph, in order). -/
def predict_labels (config : QuoteBaselineConfig)
    (paragraphs : List Paragraph) : List (List BioLabel) :=
  spans_to_bio_labels config paragraphs (find_quote_spans config paragraphs)

/-- The default configuration `QuoteBaselineConfig()`. -/
def defaultConfig : QuoteBaselineConfig := {}

/-- The default configuration with `handle_multi_paragraph=False`. -/
def noMultiConfig : QuoteBaselineConfig := { handle_multi_paragraph := false }

/-- The paragraph loop body of `_find_quote_spans` with the regex fast path
removed: every token of the paragraph is processed unconditionally.  Used to
state that the fast-path skip is behaviour-preserving. -/
def process_paragraph_all_tokens (st : MatchState)
    (paraWithIdx : Nat × Paragraph) : MatchState :=
  paraWithIdx.2.tokens.enum.foldl
    (process_token paraWithIdx.2.text paraWithIdx.2.tokens paraWithIdx.1) st

/-- Adjacency step of BIO well-formedness: a label may follow `prev` unless
it is an `I-` whose predecessor is not a `B-`/`I-` of the same type. -/
def label_continues (prev cur : BioLabel) : Bool :=
  match cur with
  | BioLabel.I t =>
    match prev with
    | BioLabel.B t2 => t = t2
    | BioLabel.I t2 => t = t2
    | BioLabel.O => false
  | _ => true

/-- BIO well-formedness of a label sequence: no `I-` at the start, and
every `I-` immediately preceded by a `B-`/`I-` of the same type.  Applied to
the concatenation of a document's per-paragraph label lists, the
predecessor of a paragraph-initial label is the previous paragraph's final
label, which is exactly the "accounting for cross-paragraph continuation"
reading. -/
def bio_well_formed (labels : List BioLabel) : Bool :=
  (match labels.head? with
   | some (BioLabel.I _) => false
   | _ => true) &&
  ((labels.zip labels.tail).all (fun p => label_continues p.1 p.2))

/-- Quote-delimiter token positions carry the label `O`. -/
def delims_O (tokens : List (List Char)) (bio : List BioLabel) : Prop :=
  ∀ k, is_quote_token (tokens.getD k []) = true →
    bio.getD k BioLabel.O = BioLabel.O

/-- Every `I-lab` label is preceded, in the same label list, by a `B-lab`
or `I-lab` with only quote-delimiter tokens strictly in between. -/
def i_chained (lab : String) (tokens : List (List Char))
    (bio : List BioLabel) : Prop :=
  ∀ i, bio.getD i BioLabel.O = BioLabel.I lab →
    ∃ j, j < i ∧
      (bio.getD j BioLabel.O = BioLabel.B lab ∨
       bio.getD j BioLabel.O = BioLabel.I lab) ∧
      ∀ k, j < k → k < i → is_quote_token (tokens.getD k []) = true

/-- A span's closing position `(end_para, end_token)` in document order. -/
def close_pos (s : Span) : Nat × Int := (s.end_para, s.end_token)

/-- A span's opening position `(start_para, start_token)` in document
order. -/
def open_pos (s : Span) : Nat × Int := (s.start_para, (s.start_token : Int))

/-- Strict lexicographic order on document positions. -/
def pos_lt (a b : Nat × Int) : Prop :=
  a.1 < b.1 ∨ (a.1 = b.1 ∧ a.2 < b.2)

/-- Lexicographic order on document positions. -/
def pos_le (a b : Nat × Int) : Prop :=
  a.1 < b.1 ∨ (a.1 = b.1 ∧ a.2 ≤ b.2)

instance (a b : Nat × Int) : Decidable (pos_lt a b) := by
  unfold pos_lt; infer_instance

instance (a b : Nat × Int) : Decidable (pos_le a b) := by
  unfold pos_le; infer_instance

/-- A span that was closed by an actual closing character (its `end_token`
is a real token index, not the `-1` sentinel). -/
def closed_span (s : Span) : Prop := 0 ≤ s.end_token

instance (s : Span) : Decidable (closed_span s) := by
  unfold closed_span; infer_instance

/-- `inner` is strictly properly nested inside `outer`. -/
def properly_nested (inner outer : Span) : Prop :=
  pos_lt (open_pos outer) (open_pos inner) ∧
  pos_lt (close_pos inner) (close_pos outer)

instance (a b : Span) : Decidable (properly_nested a b) := by
  unfold properly_nested; infer_instance

/-- Span `s`, projected into paragraph `para_idx`, writes a label at token
index `t`: `t` lies in the walked range and the token is not a
quote-delimiter token. -/
def writes (tokens : List (List Char)) (para_idx : Nat) (s : Span)
    (t : Nat) : Prop :=
  t ∈ span_range tokens para_idx s ∧
  ¬ is_quote_token (tokens.getD t []) = true

instance (tokens : List (List Char)) (para_idx : Nat) (s : Span) (t : Nat) :
    Decidable (writes tokens para_idx s t) := by
  unfold writes; infer_instance

/-- The sortedness-by-closing-position invariant of the matcher's span
list, bounded by the current document position. -/
def spans_ok (spans : List Span) (P : Nat × Int) : Prop :=
  List.Pairwise (fun a b => pos_le (close_pos a) (close_pos b)) spans ∧
  ∀ s ∈ spans, pos_le (close_pos s) P

/- Concrete inputs used by the counterexamples, failing-input evaluations
and witnesses below. -/

/-- Two-paragraph document: a quote opens in paragraph 0 and closes in
paragraph 1. -/
def c1doc : List Paragraph :=
  [⟨"He said ".toList ++ [STRAIGHT_DOUBLE_QUOTE] ++ "Go".toList,
    [['H', 'e'], ['s', 'a', 'i', 'd'], [STRAIGHT_DOUBLE_QUOTE], ['G', 'o']]⟩,
   ⟨"now ".toList ++ [STRAIGHT_DOUBLE_QUOTE],
    [['n', 'o', 'w'], [STRAIGHT_DOUBLE_QUOTE]]⟩]

/-- One paragraph whose outer double quote stays open (finalized as an
unclosed span) while an opening-only guillemet nested inside it is closed;
the guillemet delimiter token sits strictly between labeled content
tokens. -/
def c5doc : List Paragraph :=
  [⟨[STRAIGHT_DOUBLE_QUOTE] ++ " Hi ".toList ++ [LEFT_GUILLEMET] ++
      " there ".toList ++ [STRAIGHT_DOUBLE_QUOTE],
    [[STRAIGHT_DOUBLE_QUOTE], ['H', 'i'], [LEFT_GUILLEMET],
     ['t', 'h', 'e', 'r', 'e'], [STRAIGHT_DOUBLE_QUOTE]]⟩]

/-- Single token `'a`: a two-character token starting with a straight
single quote, in a text where the quote is the first character. -/
def c7text : List Char := [STRAIGHT_SINGLE_QUOTE, 'a']

/-- Token list for `c7text`. -/
def c7tokens : List (List Char) := [[STRAIGHT_SINGLE_QUOTE, 'a']]

/-- Text `'a'b`: the straight single quote occurs at indices 0 and 2 with
different surrounding contexts. -/
def c8text : List Char := [STRAIGHT_SINGLE_QUOTE, 'a', STRAIGHT_SINGLE_QUOTE, 'b']

/-- The single token of `c8text` (the whole text). -/
def c8tokens : List (List Char) := [c8text]

/-- One-paragraph document over `c8text`. -/
def c8doc : List Paragraph := [⟨c8text, c8tokens⟩]

/-- Text `a'b 'x1` with the single token `'x1`: the token-shape analysis
falls through and the context check runs at the first occurrence of the
quote (index 1, inside `a'b`). -/
def c8wtext : List Char :=
  ['a', STRAIGHT_SINGLE_QUOTE, 'b', ' ', STRAIGHT_SINGLE_QUOTE, 'x', '1']

/-- Token list for `c8wtext`. -/
def c8wtokens : List (List Char) := [[STRAIGHT_SINGLE_QUOTE, 'x', '1']]

/-- An unterminated quote in a one-token paragraph. -/
def c4doc : List Paragraph :=
  [⟨[STRAIGHT_DOUBLE_QUOTE] ++ " Hi".toList,
    [[STRAIGHT_DOUBLE_QUOTE], ['H', 'i']]⟩]

/-- A paragraph with no quote characters at all. -/
def c6para : Paragraph :=
  ⟨"Hi there".toList, [['H', 'i'], ['t', 'h', 'e', 'r', 'e']]⟩

/-- Two paragraphs: an outer double quote opens in paragraph 0 and closes
at the end of paragraph 1; a guillemet pair properly nested inside it opens
and closes within paragraph 1. -/
def c10doc : List Paragraph :=
  [⟨[STRAIGHT_DOUBLE_QUOTE] ++ " A".toList, [[STRAIGHT_DOUBLE_QUOTE], ['A']]⟩,
   ⟨[LEFT_GUILLEMET] ++ " B ".toList ++ [RIGHT_GUILLEMET] ++ " C ".toList ++
      [STRAIGHT_DOUBLE_QUOTE],
    [[LEFT_GUILLEMET], ['B'], [RIGHT_GUILLEMET], ['C'],
     [STRAIGHT_DOUBLE_QUOTE]]⟩]

/-! Theorems. -/

/-- C9: a quote character that belongs only to the closing set, seen while
the quote stack is empty, is a complete no-op: nothing is pushed, no span
is emitted, and no pop is attempted. -/
theorem c9_closing_only_on_empty_stack_is_noop (qc : Char) (ti pi : Nat)
    (spans : List Span) (h1 : qc ∈ CLOSING_QUOTES)
    (h2 : qc ∉ OPENING_QUOTES) :
    process_quote_token qc ti pi ⟨[], spans⟩ = ⟨[], spans⟩ := by
  simp [process_quote_token, h2]

/-- Witness for `c9_closing_only_on_empty_stack_is_noop` at the right
guillemet. -/
theorem c9_witness :
    process_quote_token RIGHT_GUILLEMET 3 1 ⟨[], []⟩ = ⟨[], []⟩ :=
  c9_closing_only_on_empty_stack_is_noop RIGHT_GUILLEMET 3 1 []
    (by decide) (by decide)

/-- C2: the priority rule of `_process_quote_token`.  When the stack is
non-empty and the character is in the closing set, the top entry is popped
and a span `(open_para, current_para, open_token, current_token,
popped_char)` is emitted with `nesting_level` the stack size after the pop
and `is_nested` true iff that size is positive; and a new entry is pushed
only if the stack was empty or the character is exclusively opening. -/
theorem c2_priority_rule (qc : Char) (ti pi : Nat) (entry : StackEntry)
    (rest stack : List StackEntry) (spans : List Span) :
    (qc ∈ CLOSING_QUOTES → stack = entry :: rest →
      process_quote_token qc ti pi ⟨stack, spans⟩ =
        ⟨rest, spans ++ [⟨entry.1, pi, entry.2.1, ti, entry.2.2,
            decide (rest.length > 0), rest.length⟩]⟩) ∧
    ((process_quote_token qc ti pi ⟨stack, spans⟩).stack =
        (pi, ti, qc) :: stack →
      stack = [] ∨ (qc ∈ OPENING_QUOTES ∧ qc ∉ CLOSING_QUOTES)) := by
  obtain ⟨ep, et, ec⟩ := entry
  constructor
  · intro hc hs
    subst hs
    simp [process_quote_token, hc]
  · intro hpush
    by_cases hc : qc ∈ CLOSING_QUOTES
    · cases hstack : stack with
      | nil => exact Or.inl rfl
      | cons e rest2 =>
        exfalso
        obtain ⟨e1, e2, e3⟩ := e
        rw [hstack] at hpush
        simp [process_quote_token, hc] at hpush
        have hlen := congrArg List.length hpush
        simp at hlen
        omega
    · by_cases ho : qc ∈ OPENING_QUOTES
      · exact Or.inr ⟨ho, hc⟩
      · exfalso
        simp [process_quote_token, hc, ho] at hpush

/-- Witness for `c2_priority_rule`: a straight double quote closing the
single open entry. -/
theorem c2_priority_rule_witness :
    process_quote_token STRAIGHT_DOUBLE_QUOTE 5 0
        ⟨[(0, 2, STRAIGHT_DOUBLE_QUOTE)], []⟩ =
      ⟨[], [⟨0, 0, 2, 5, STRAIGHT_DOUBLE_QUOTE, false, 0⟩]⟩ := by
  have h := (c2_priority_rule STRAIGHT_DOUBLE_QUOTE 5 0
      (0, 2, STRAIGHT_DOUBLE_QUOTE) [] [(0, 2, STRAIGHT_DOUBLE_QUOTE)] []).1
    (by decide) rfl
  simpa using h

/-- C4: at document end, with `handle_multi_paragraph` every remaining
stack entry (walked from the bottom of the stack) is finalized
independently into a span closing at the last paragraph with the unclosed
sentinel `-1`, `is_nested = False` and `nesting_level = 0`; without it the
remaining entries are discarded and the spans are exactly the matcher's. -/
theorem c4_finalizer (config : QuoteBaselineConfig)
    (paragraphs : List Paragraph) :
    (config.handle_multi_paragraph = true →
      find_quote_spans config paragraphs =
        (run_matcher paragraphs).spans ++
          (run_matcher paragraphs).stack.reverse.map (fun e =>
            ⟨e.1, paragraphs.length - 1, e.2.1, -1, e.2.2, false, 0⟩)) ∧
    (config.handle_multi_paragraph = false →
      find_quote_spans config paragraphs = (run_matcher paragraphs).spans) := by
  constructor
  · intro h
    by_cases he : (run_matcher paragraphs).stack.isEmpty
    · have hnil : (run_matcher paragraphs).stack = [] := by
        simpa [List.isEmpty_iff] using he
      simp [find_quote_spans, hnil]
    · simp [find_quote_spans, h, he]
  · intro h
    simp [find_quote_spans, h]

/-- Witness for `c4_finalizer`: the unterminated quote of `c4doc` is
finalized under the default configuration and discarded with
`handle_multi_paragraph=False`. -/
theorem c4_finalizer_witness :
    find_quote_spans defaultConfig c4doc =
      [⟨0, 0, 0, -1, STRAIGHT_DOUBLE_QUOTE, false, 0⟩] ∧
    find_quote_spans noMultiConfig c4doc = [] := by
  constructor
  · have h := (c4_finalizer defaultConfig c4doc).1 rfl
    rw [h]; decide
  · have h := (c4_finalizer noMultiConfig c4doc).2 rfl
    rw [h]; decide

/-- C1 (failing input): on `c1doc` the matcher emits one span that opens in
paragraph 0 and closes in paragraph 1, yet the projector labels only
paragraph 0 (from the opening through the end of paragraph 0) and leaves
every token of paragraph 1 labeled O, because spans are bucketed by their
opening paragraph only. -/
theorem c1_continuation_paragraph_unlabeled :
    find_quote_spans defaultConfig c1doc =
      [⟨0, 1, 2, 1, STRAIGHT_DOUBLE_QUOTE, false, 0⟩] ∧
    predict_labels defaultConfig c1doc =
      [[BioLabel.O, BioLabel.O, BioLabel.O, BioLabel.B "DIRECT"],
       [BioLabel.O, BioLabel.O]] := by
  constructor
  · decide
  · decide

/-- C5 (counterexample): the document `c5doc` yields the label sequence
O, B-DIRECT, O, I-DIRECT, O — the I-DIRECT at index 3 is immediately
preceded by an O (on the nested guillemet delimiter token), violating
strict BIO well-formedness. -/
theorem c5_counterexample :
    bio_well_formed ((predict_labels defaultConfig c5doc).flatten) = false := by
  decide

/-- C7 (counterexample): for the two-character token made of a straight
single quote followed by a letter, none of the claim's positional rules
applies (the token is not longer than 2 and the character is its first
character), so per the claim the raw-text context should decide — and the
context check rejects (the character is at text position 0) — yet
`_is_apostrophe` classifies it as an apostrophe via the unconditional
final token branch. -/
theorem c7_counterexample :
    is_apostrophe STRAIGHT_SINGLE_QUOTE 0 c7text 0 c7tokens = true ∧
    (c7tokens.getD 0 []).length = 2 ∧
    (c7tokens.getD 0 []).head? = some STRAIGHT_SINGLE_QUOTE ∧
    apostrophe_context 0 c7text = false := by
  decide

/-- C8 (counterexample): in `c8doc` the straight single quote occurs at
text indices 0 and 2.  The first occurrence is consumed by the first
extracted quote character, and an engine preferring the first *unconsumed*
occurrence would evaluate the second extracted character at index 2 — where
`_is_apostrophe` answers true — and emit no closed span.  The engine instead
re-finds index 0 for both characters and emits the closed span
`(0, 0, 0, 0)`. -/
theorem c8_counterexample :
    find_quote_spans defaultConfig c8doc =
      [⟨0, 0, 0, 0, STRAIGHT_SINGLE_QUOTE, false, 0⟩] ∧
    c8text.findIdx? (fun c => c = STRAIGHT_SINGLE_QUOTE) = some 0 ∧
    is_apostrophe STRAIGHT_SINGLE_QUOTE 2 c8text 0 c8tokens = true := by
  decide

/-- C10 (counterexample): in `c10doc` the guillemet span is properly
nested inside the double-quote span and appears earlier in the span list,
but the two spans open in different paragraphs, so the projector (which
buckets by opening paragraph) applies only the inner span to paragraph 1:
the inner B-DIRECT at paragraph 1, token 1 is never overwritten by the
outer span. -/
theorem c10_counterexample :
    find_quote_spans defaultConfig c10doc =
      [⟨1, 1, 0, 2, LEFT_GUILLEMET, true, 1⟩,
       ⟨0, 1, 0, 4, STRAIGHT_DOUBLE_QUOTE, false, 0⟩] ∧
    properly_nested ⟨1, 1, 0, 2, LEFT_GUILLEMET, true, 1⟩
      ⟨0, 1, 0, 4, STRAIGHT_DOUBLE_QUOTE, false, 0⟩ ∧
    spans_by_para (find_quote_spans defaultConfig c10doc) 1 =
      [⟨1, 1, 0, 2, LEFT_GUILLEMET, true, 1⟩] ∧
    ((predict_labels defaultConfig c10doc).getD 1 []).getD 1 BioLabel.O =
      BioLabel.B "DIRECT" := by
  refine ⟨by decide, by decide, by decide, by decide⟩

/-- `mark_tokens` preserves the length of the label list. -/
theorem mark_tokens_length (lab : String) (tokens : List (List Char)) :
    ∀ (idxs : List Nat) (bio : List BioLabel) (fc : Bool),
      (mark_tokens lab tokens idxs bio fc).length = bio.length := by
  intro idxs
  induction idxs with
  | nil => intro bio fc; rfl
  | cons ti rest ih =>
    intro bio fc
    unfold mark_tokens
    by_cases h1 : is_quote_token (tokens.getD ti []) = true
    · simp only [h1, if_pos]
      exact ih bio fc
    · simp only [h1]
      by_cases h2 : fc = true
      · simp only [h2, if_neg, if_pos, Bool.false_eq_true, if_false, if_true]
        rw [ih]; simp
      · have h2f : fc = false := by
          cases fc
          · rfl
          · exact absurd rfl h2
        simp only [h2f, Bool.false_eq_true, if_false]
        rw [ih]; simp

/-- `apply_span` preserves the length of the label list. -/
theorem apply_span_length (lab : String) (tokens : List (List Char))
    (para_idx : Nat) (bio : List BioLabel) (s : Span) :
    (apply_span lab tokens para_idx bio s).length = bio.length :=
  mark_tokens_length lab tokens _ bio true

/-- Folding span application preserves the length of the label list. -/
theorem foldl_apply_span_length (lab : String) (tokens : List (List Char))
    (para_idx : Nat) :
    ∀ (spans : List Span) (bio : List BioLabel),
      (spans.foldl (apply_span lab tokens para_idx) bio).length = bio.length := by
  intro spans
  induction spans with
  | nil => intro bio; rfl
  | cons s rest ih =>
    intro bio
    rw [List.foldl_cons, ih, apply_span_length]

/-- The paragraph-indexed characterization of `spans_to_bio_labels`. -/
theorem spans_to_bio_labels_getD (config : QuoteBaselineConfig)
    (paragraphs : List Paragraph) (spans : List Span) (p : Nat)
    (hp : p < paragraphs.length) :
    (spans_to_bio_labels config paragraphs spans).getD p [] =
      (spans_by_para spans p).foldl
        (apply_span config.speech_label (paragraphs.getD p default).tokens p)
        (List.replicate (paragraphs.getD p default).tokens.length BioLabel.O) := by
  unfold spans_to_bio_labels
  rw [List.getD_eq_getElem?_getD, List.getElem?_map, List.getElem?_enum,
    List.getElem?_eq_getElem hp, List.getD_eq_getElem _ _ hp]
  rfl

/-- C3: the engine emits exactly one label list per input paragraph, in
input order, and every label list has exactly the length of the
paragraph's token list (out-of-range indices give the empty list on both
sides). -/
theorem c3_output_shape (config : QuoteBaselineConfig)
    (paragraphs : List Paragraph) :
    (predict_labels config paragraphs).length = paragraphs.length ∧
    ∀ p : Nat, ((predict_labels config paragraphs).getD p []).length =
      ((paragraphs.getD p default).tokens).length := by
  constructor
  · unfold predict_labels spans_to_bio_labels
    simp
  · intro p
    by_cases hp : p < paragraphs.length
    · unfold predict_labels
      rw [spans_to_bio_labels_getD _ _ _ p hp, foldl_apply_span_length]
      simp
    · have hle : paragraphs.length ≤ p := Nat.le_of_not_lt hp
      have hlab : (predict_labels config paragraphs).length ≤ p := by
        unfold predict_labels spans_to_bio_labels
        simpa using hle
      rw [List.getD_eq_default _ _ hlab, List.getD_eq_default _ _ hle]
      rfl

/-- Every canonical quote character is matched by the `QUOTE_PATTERN`
regex class. -/
theorem all_quotes_subset_pattern :
    ∀ c ∈ ALL_QUOTES, c ∈ QUOTE_PATTERN_CHARS := by decide

/-- A fold whose step fixes every state is the identity. -/
theorem foldl_fixed_of_mem {α β : Type} (f : α → β → α) :
    ∀ (l : List β) (a : α), (∀ b ∈ l, ∀ x : α, f x b = x) →
      l.foldl f a = a := by
  intro l
  induction l with
  | nil => intro a _; rfl
  | cons b t ih =>
    intro a h
    rw [List.foldl_cons, h b (List.mem_cons_self b t) a]
    exact ih a (fun x hx s => h x (List.mem_cons_of_mem b hx) s)

/-- C6: a paragraph whose raw text contains no character of the quote
regex class is skipped by the fast path with no state change, and
processing each of its tokens unconditionally (the fast path removed) is
also a no-op, so the skip is behaviour-preserving.  The second hypothesis
is the data-model invariant that tokens are drawn from the paragraph
text. -/
theorem c6_fast_path_equivalence (para : Paragraph) (pi : Nat)
    (st : MatchState)
    (hq : ∀ c ∈ para.text, c ∉ QUOTE_PATTERN_CHARS)
    (ht : ∀ tok ∈ para.tokens, ∀ c ∈ tok, c ∈ para.text) :
    process_paragraph st (pi, para) = st ∧
    process_paragraph_all_tokens st (pi, para) = st ∧
    process_paragraph st (pi, para) =
      process_paragraph_all_tokens st (pi, para) := by
  have hsearch : quote_pattern_search para.text = false := by
    unfold quote_pattern_search
    rw [List.any_eq_false]
    intro c hc
    simpa using hq c hc
  have hnotall : ∀ tok ∈ para.tokens, ∀ c ∈ tok, c ∉ ALL_QUOTES := by
    intro tok htok c hc hcq
    exact hq c (ht tok htok c hc) (all_quotes_subset_pattern c hcq)
  have htokstep : ∀ x ∈ para.tokens.enum, ∀ s : MatchState,
      process_token para.text para.tokens pi s x = s := by
    intro x hx s
    have htokmem : x.2 ∈ para.tokens := by
      have h2 := List.mem_enum_iff_getElem?.mp hx
      exact List.getElem?_mem h2
    have hnq : ∀ c ∈ x.2, c ∉ ALL_QUOTES := hnotall x.2 htokmem
    have hq1 : is_quote_token x.2 = false := by
      unfold is_quote_token
      cases hx2 : x.2 with
      | nil => rfl
      | cons c t =>
        cases t with
        | nil =>
          have : c ∉ ALL_QUOTES := by
            apply hnq
            rw [hx2]
            exact List.mem_cons_self c []
          simpa using this
        | cons d t2 => rfl
    simp only [process_token, hq1, Bool.false_eq_true, if_false]
    by_cases hlen : x.2.length > 1
    · rw [if_pos hlen]
      have hhead : x.2.getD 0 ' ' ∉ ALL_QUOTES := by
        apply hnq
        rw [List.getD_eq_getElem _ _ (by omega)]
        exact List.getElem_mem _
      have hlast : x.2.getD (x.2.length - 1) ' ' ∉ ALL_QUOTES := by
        apply hnq
        rw [List.getD_eq_getElem _ _ (by omega)]
        exact List.getElem_mem _
      rw [if_neg (by tauto)]
    · rw [if_neg hlen]
  refine ⟨?_, ?_, ?_⟩
  · unfold process_paragraph
    simp [hsearch]
  · unfold process_paragraph_all_tokens
    exact foldl_fixed_of_mem _ _ st htokstep
  · unfold process_paragraph process_paragraph_all_tokens
    simp [hsearch]
    rw [foldl_fixed_of_mem _ _ st htokstep]

/-- Witness for `c6_fast_path_equivalence` on a quote-free paragraph and a
non-trivial incoming state. -/
theorem c6_fast_path_witness :
    process_paragraph ⟨[(0, 0, STRAIGHT_DOUBLE_QUOTE)], []⟩ (1, c6para) =
      ⟨[(0, 0, STRAIGHT_DOUBLE_QUOTE)], []⟩ :=
  (c6_fast_path_equivalence c6para 1 ⟨[(0, 0, STRAIGHT_DOUBLE_QUOTE)], []⟩
    (by decide) (by decide)).1

/-- C7 (amended): for a single-quote-family character occurring in a token
of length greater than 1, `_is_apostrophe` behaves as follows: when the
character is the token's first character and the token is longer than 2,
the verdict is quote delimiter if the remainder is alphabetic or
alphabetic-with-hyphens and otherwise falls to the raw-text context check;
in every other case the verdict is apostrophe (the trailing-position and
internal-position branches both return apostrophe, and the internal branch
catches every remaining shape). -/
theorem c7_amended_branch_structure (char : Char) (char_idx : Nat)
    (text : List Char) (token_idx : Nat) (tokens : List (List Char))
    (hq : char ∈ SINGLE_QUOTE_FAMILY) (hti : token_idx < tokens.length)
    (hlen : (tokens.getD token_idx []).length > 1)
    (hin : char ∈ tokens.getD token_idx []) :
    is_apostrophe char char_idx text token_idx tokens =
      (if (tokens.getD token_idx []).head? = some char ∧
          (tokens.getD token_idx []).length > 2 then
        (if pyIsAlpha (tokens.getD token_idx []).tail ∨
            pyIsAlpha ((tokens.getD token_idx []).tail.filter
              (fun c => c ≠ '-'))
         then false
         else apostrophe_context char_idx text)
       else true) := by
  simp only [is_apostrophe]
  rw [if_neg (by simpa using hq), if_neg (by omega),
    if_pos (⟨hlen, hin⟩ : (tokens.getD token_idx []).length > 1 ∧
      char ∈ tokens.getD token_idx [])]
  by_cases h1 : (tokens.getD token_idx []).head? = some char ∧
      (tokens.getD token_idx []).length > 2
  · rw [if_pos h1, if_pos h1]
    by_cases h2 : pyIsAlpha (tokens.getD token_idx []).tail ∨
        pyIsAlpha ((tokens.getD token_idx []).tail.filter (fun c => c ≠ '-'))
    · rw [if_pos h2, if_pos h2]
    · rw [if_neg h2, if_neg h2]
  · rw [if_neg h1, if_neg h1]
    by_cases h3 : (tokens.getD token_idx []).getLast? = some char ∧
        (tokens.getD token_idx []).length > 2
    · rw [if_pos h3]
    · rw [if_neg h3, if_pos (⟨hin, hlen⟩ : char ∈ tokens.getD token_idx [] ∧
        (tokens.getD token_idx []).length > 1)]

/-- Witness for `c7_amended_branch_structure`: the embedded quote of a
contraction-shaped token is classified apostrophe by the catch-all
branch. -/
theorem c7_amended_witness :
    is_apostrophe STRAIGHT_SINGLE_QUOTE 3
      ['d', 'o', 'n', STRAIGHT_SINGLE_QUOTE, 't'] 0
      [['d', 'o', 'n', STRAIGHT_SINGLE_QUOTE, 't']] = true := by
  have h := c7_amended_branch_structure STRAIGHT_SINGLE_QUOTE 3
    ['d', 'o', 'n', STRAIGHT_SINGLE_QUOTE, 't'] 0
    [['d', 'o', 'n', STRAIGHT_SINGLE_QUOTE, 't']]
    (by decide) (by decide) (by decide) (by decide)
  rw [h]
  decide

/-- The `findIdx?` result is the first matching index: in range, matching,
and every earlier index non-matching. -/
theorem findIdx?_first {α : Type} (p : α → Bool) (d : α) :
    ∀ (l : List α) (i : Nat), l.findIdx? p = some i →
      i < l.length ∧ p (l.getD i d) = true ∧
        ∀ j, j < i → p (l.getD j d) = false := by
  intro l
  induction l with
  | nil =>
    intro i h
    simp [List.findIdx?] at h
  | cons a t ih =>
    intro i h
    rw [List.findIdx?_cons] at h
    by_cases hpa : p a = true
    · rw [if_pos hpa] at h
      cases h
      refine ⟨by simp, by simpa using hpa, ?_⟩
      intro j hj
      omega
    · rw [if_neg hpa] at h
      rw [List.findIdx?_succ] at h
      obtain ⟨i2, hfi, hi⟩ := Option.map_eq_some'.mp h
      obtain ⟨hb, hp, hprev⟩ := ih i2 hfi
      subst hi
      refine ⟨by simpa using hb, by simpa using hp, ?_⟩
      intro j hj
      cases j with
      | zero =>
        simpa using (Bool.eq_false_iff.mpr hpa)
      | succ j2 =>
        have := hprev j2 (by omega)
        simpa using this

/-- C8 (amended): whenever the case-2 apostrophe filter of
`_find_quote_spans` skips a quote character, the decision was made by
evaluating `_is_apostrophe` at the first occurrence of that character in
the paragraph text (`str.find`), with no tracking of already-consumed
occurrences; the lookup is total, so no alignment failure is ever
raised. -/
theorem c8_amended_first_occurrence (quote_char : Char) (text : List Char)
    (token_idx : Nat) (tokens : List (List Char))
    (h : apostrophe_skip quote_char text token_idx tokens = true) :
    ∃ i, text.findIdx? (fun c => c = quote_char) = some i ∧
      text.getD i ' ' = quote_char ∧
      (∀ j, j < i → ¬ text.getD j ' ' = quote_char) ∧
      is_apostrophe quote_char i text token_idx tokens = true := by
  unfold apostrophe_skip at h
  cases hf : text.findIdx? (fun c => c = quote_char) with
  | none =>
    rw [hf] at h
    exact absurd h (by simp)
  | some i =>
    rw [hf] at h
    obtain ⟨hb, hp, hprev⟩ := findIdx?_first (fun c => c = quote_char) ' ' text i hf
    refine ⟨i, rfl, by simpa using hp, ?_, h⟩
    intro j hj
    have := hprev j hj
    simpa using this

/-- Witness for `c8_amended_first_occurrence` at a token shaped like a
leading-quote non-word, skipped because the first occurrence of the quote
in the text sits between letters. -/
theorem c8_amended_witness :
    ∃ i, c8wtext.findIdx? (fun c => c = STRAIGHT_SINGLE_QUOTE) = some i ∧
      c8wtext.getD i ' ' = STRAIGHT_SINGLE_QUOTE ∧
      (∀ j, j < i → ¬ c8wtext.getD j ' ' = STRAIGHT_SINGLE_QUOTE) ∧
      is_apostrophe STRAIGHT_SINGLE_QUOTE i c8wtext 0 c8wtokens = true :=
  c8_amended_first_occurrence STRAIGHT_SINGLE_QUOTE c8wtext 0 c8wtokens
    (by decide)

/-- Reading a just-set position. -/
theorem getD_set_self {α : Type} (l : List α) (i : Nat) (v d : α)
    (h : i < l.length) : (l.set i v).getD i d = v := by
  simp [List.getD_eq_getElem?_getD, List.getElem?_set, h]

/-- Reading an untouched position. -/
theorem getD_set_ne {α : Type} (l : List α) (i j : Nat) (v d : α)
    (h : ¬ i = j) : (l.set i v).getD j d = l.getD j d := by
  simp [List.getD_eq_getElem?_getD, List.getElem?_set, h]

/-- The label-emission loop preserves the quote-delimiter/`O` and the
delimiter-gapped `I`-chain invariants.  `fc = false` requires an already
written `B`/`I` strictly before the range, separated from it only by
delimiter tokens. -/
theorem mark_tokens_invariant (lab : String) (tokens : List (List Char)) :
    ∀ (n s : Nat) (bio : List BioLabel) (fc : Bool),
      (∀ t ∈ List.range' s n, t < bio.length) →
      delims_O tokens bio →
      i_chained lab tokens bio →
      (fc = false → ∃ j, j < s ∧
        (bio.getD j BioLabel.O = BioLabel.B lab ∨
         bio.getD j BioLabel.O = BioLabel.I lab) ∧
        ∀ k, j < k → k < s → is_quote_token (tokens.getD k []) = true) →
      delims_O tokens (mark_tokens lab tokens (List.range' s n) bio fc) ∧
      i_chained lab tokens (mark_tokens lab tokens (List.range' s n) bio fc) := by
  intro n
  induction n with
  | zero =>
    intro s bio fc _ hD hI _
    exact ⟨hD, hI⟩
  | succ n ih =>
    intro s bio fc hmem hD hI hfc
    have hs : s < bio.length := by
      apply hmem
      rw [List.mem_range'_1]
      omega
    have hrange : List.range' s (n + 1) = s :: List.range' (s + 1) n := rfl
    rw [hrange]
    unfold mark_tokens
    by_cases hdel : is_quote_token (tokens.getD s []) = true
    · rw [if_pos hdel]
      apply ih (s + 1) bio fc ?_ hD hI ?_
      · intro t ht
        apply hmem
        rw [List.mem_range'_1] at ht ⊢
        omega
      · intro hfcf
        obtain ⟨j, hj, hlab, hks⟩ := hfc hfcf
        refine ⟨j, by omega, hlab, ?_⟩
        intro k h1 h2
        by_cases hk : k = s
        · rw [hk]; exact hdel
        · exact hks k h1 (by omega)
    · rw [if_neg hdel]
      by_cases hfcb : fc = true
      · subst hfcb
        rw [if_pos rfl]
        apply ih (s + 1) (bio.set s (BioLabel.B lab)) false ?_ ?_ ?_ ?_
        · intro t ht
          rw [List.length_set]
          apply hmem
          rw [List.mem_range'_1] at ht ⊢
          omega
        · intro k hk
          have hknes : ¬ s = k := by
            intro he
            rw [he] at hdel
            exact hdel hk
          rw [getD_set_ne _ _ _ _ _ hknes]
          exact hD k hk
        · intro i hIi
          by_cases his : i = s
          · exfalso
            rw [his, getD_set_self _ _ _ _ hs] at hIi
            exact BioLabel.noConfusion hIi
          · have hsnei : ¬ s = i := fun he => his he.symm
            rw [getD_set_ne _ _ _ _ _ hsnei] at hIi
            obtain ⟨j, hj, hlab, hks⟩ := hI i hIi
            refine ⟨j, hj, ?_, hks⟩
            by_cases hjs : s = j
            · left
              rw [hjs] at hs ⊢
              rw [getD_set_self _ _ _ _ hs]
            · rw [getD_set_ne _ _ _ _ _ hjs]
              exact hlab
        · intro _
          refine ⟨s, by omega, Or.inl (getD_set_self _ _ _ _ hs), ?_⟩
          intro k h1 h2
          omega
      · have hfcf : fc = false := by
          cases fc
          · rfl
          · exact absurd rfl hfcb
        subst hfcf
        simp only [Bool.false_eq_true, if_false]
        obtain ⟨j0, hj0, hlab0, hks0⟩ := hfc rfl
        apply ih (s + 1) (bio.set s (BioLabel.I lab)) false ?_ ?_ ?_ ?_
        · intro t ht
          rw [List.length_set]
          apply hmem
          rw [List.mem_range'_1] at ht ⊢
          omega
        · intro k hk
          have hknes : ¬ s = k := by
            intro he
            rw [he] at hdel
            exact hdel hk
          rw [getD_set_ne _ _ _ _ _ hknes]
          exact hD k hk
        · intro i hIi
          by_cases his : i = s
          · refine ⟨j0, by omega, ?_, ?_⟩
            · rw [getD_set_ne _ _ _ _ _ (by omega : ¬ s = j0)]
              exact hlab0
            · intro k h1 h2
              apply hks0 k h1
              omega
          · have hsnei : ¬ s = i := fun he => his he.symm
            rw [getD_set_ne _ _ _ _ _ hsnei] at hIi
            obtain ⟨j, hj, hlab, hks⟩ := hI i hIi
            refine ⟨j, hj, ?_, hks⟩
            by_cases hjs : s = j
            · right
              rw [hjs] at hs ⊢
              rw [getD_set_self _ _ _ _ hs]
            · rw [getD_set_ne _ _ _ _ _ hjs]
              exact hlab
        · intro _
          refine ⟨s, by omega, Or.inr (getD_set_self _ _ _ _ hs), ?_⟩
          intro k h1 h2
          omega

/-- Every index walked for a span is a valid token index. -/
theorem span_range_lt (tokens : List (List Char)) (para_idx : Nat)
    (s : Span) : ∀ t ∈ span_range tokens para_idx s, t < tokens.length := by
  intro t ht
  unfold span_range at ht
  rw [List.mem_range'_1] at ht
  obtain ⟨h1, h2⟩ := ht
  unfold span_cnt at h2
  have hstop : span_stop tokens para_idx s ≤ (tokens.length : Int) := by
    unfold span_stop
    exact min_le_right _ _
  omega

/-- Applying one span preserves both label invariants. -/
theorem apply_span_invariant (lab : String) (tokens : List (List Char))
    (para_idx : Nat) (bio : List BioLabel) (s : Span)
    (hlen : bio.length = tokens.length)
    (hD : delims_O tokens bio) (hI : i_chained lab tokens bio) :
    delims_O tokens (apply_span lab tokens para_idx bio s) ∧
    i_chained lab tokens (apply_span lab tokens para_idx bio s) := by
  unfold apply_span span_range
  apply mark_tokens_invariant lab tokens _ _ bio true ?_ hD hI (by simp)
  intro t ht
  rw [hlen]
  exact span_range_lt tokens para_idx s t ht

/-- Folding span application preserves both label invariants. -/
theorem foldl_apply_span_invariant (lab : String) (tokens : List (List Char))
    (para_idx : Nat) :
    ∀ (spans : List Span) (bio : List BioLabel),
      bio.length = tokens.length →
      delims_O tokens bio → i_chained lab tokens bio →
      delims_O tokens (spans.foldl (apply_span lab tokens para_idx) bio) ∧
      i_chained lab tokens (spans.foldl (apply_span lab tokens para_idx) bio) := by
  intro spans
  induction spans with
  | nil =>
    intro bio _ hD hI
    exact ⟨hD, hI⟩
  | cons sp rest ih =>
    intro bio hlen hD hI
    rw [List.foldl_cons]
    obtain ⟨hD2, hI2⟩ := apply_span_invariant lab tokens para_idx bio sp hlen hD hI
    exact ih _ (by rw [apply_span_length, hlen]) hD2 hI2

/-- The all-`O` initial label list satisfies both invariants. -/
theorem replicate_O_invariant (lab : String) (tokens : List (List Char))
    (m : Nat) :
    delims_O tokens (List.replicate m BioLabel.O) ∧
    i_chained lab tokens (List.replicate m BioLabel.O) := by
  have hO : ∀ k, (List.replicate m BioLabel.O).getD k BioLabel.O = BioLabel.O := by
    intro k
    rw [List.getD_eq_getElem?_getD, List.getElem?_replicate]
    by_cases h : k < m
    · rw [if_pos h]; rfl
    · rw [if_neg h]; rfl
  constructor
  · intro k _
    exact hO k
  · intro i hIi
    exfalso
    rw [hO i] at hIi
    exact BioLabel.noConfusion hIi

/-- C5 (amended): in every output label list, each `I-<TYPE>` is preceded,
within the same paragraph, by an earlier `B-<TYPE>` or `I-<TYPE>` of the
same type, with every position strictly between them a quote-delimiter
token (which always remains `O`). -/
theorem c5_amended_delimiter_gapped_chains (config : QuoteBaselineConfig)
    (paragraphs : List Paragraph) (p i : Nat)
    (hI : ((predict_labels config paragraphs).getD p []).getD i BioLabel.O =
      BioLabel.I config.speech_label) :
    ∃ j, j < i ∧
      (((predict_labels config paragraphs).getD p []).getD j BioLabel.O =
          BioLabel.B config.speech_label ∨
       ((predict_labels config paragraphs).getD p []).getD j BioLabel.O =
          BioLabel.I config.speech_label) ∧
      ∀ k, j < k → k < i →
        is_quote_token ((paragraphs.getD p default).tokens.getD k []) = true := by
  by_cases hp : p < paragraphs.length
  · unfold predict_labels at hI ⊢
    rw [spans_to_bio_labels_getD _ _ _ p hp] at hI ⊢
    refine (foldl_apply_span_invariant config.speech_label
      (paragraphs.getD p default).tokens p _ _ (by simp) ?_ ?_).2 i hI
    · exact (replicate_O_invariant config.speech_label _ _).1
    · exact (replicate_O_invariant config.speech_label _ _).2
  · exfalso
    have hle : paragraphs.length ≤ p := Nat.le_of_not_lt hp
    have hlab : (predict_labels config paragraphs).length ≤ p := by
      unfold predict_labels spans_to_bio_labels
      simpa using hle
    rw [List.getD_eq_default _ _ hlab] at hI
    exact BioLabel.noConfusion hI

/-- Witness for `c5_amended_delimiter_gapped_chains`: the I-DIRECT at
index 3 of the `c5doc` output is chained to the B-DIRECT at index 1 across
the guillemet delimiter at index 2. -/
theorem c5_amended_witness :
    ∃ j, j < 3 ∧
      (((predict_labels defaultConfig c5doc).getD 0 []).getD j BioLabel.O =
          BioLabel.B defaultConfig.speech_label ∨
       ((predict_labels defaultConfig c5doc).getD 0 []).getD j BioLabel.O =
          BioLabel.I defaultConfig.speech_label) ∧
      ∀ k, j < k → k < 3 →
        is_quote_token ((c5doc.getD 0 default).tokens.getD k []) = true :=
  c5_amended_delimiter_gapped_chains defaultConfig c5doc 0 3 (by decide)

/-- Transitivity of the document-position order. -/
theorem pos_le_trans {a b c : Nat × Int} (h1 : pos_le a b)
    (h2 : pos_le b c) : pos_le a c := by
  unfold pos_le at h1 h2 ⊢
  rcases h1 with h1 | ⟨h1a, h1b⟩ <;> rcases h2 with h2 | ⟨h2a, h2b⟩
  · exact Or.inl (by omega)
  · exact Or.inl (by omega)
  · exact Or.inl (by omega)
  · exact Or.inr ⟨by omega, by omega⟩

/-- Strict position order excludes the reverse weak order. -/
theorem pos_lt_not_le {a b : Nat × Int} (h1 : pos_lt a b) :
    ¬ pos_le b a := by
  unfold pos_lt at h1
  unfold pos_le
  intro h2
  rcases h1 with h1 | ⟨h1a, h1b⟩ <;> rcases h2 with h2 | ⟨h2a, h2b⟩ <;> omega

/-- A fold preserving a predicate step-by-step preserves it overall. -/
theorem foldl_preserve {α β : Type} (f : α → β → α) (P : α → Prop)
    (h : ∀ a b, P a → P (f a b)) :
    ∀ (l : List β) (a : α), P a → P (l.foldl f a) := by
  intro l
  induction l with
  | nil => intro a ha; exact ha
  | cons b t ih =>
    intro a ha
    rw [List.foldl_cons]
    exact ih (f a b) (h a b ha)

/-- Weakening the bound of `spans_ok`. -/
theorem spans_ok_mono {spans : List Span} {P Q : Nat × Int}
    (h : spans_ok spans P) (hPQ : pos_le P Q) : spans_ok spans Q :=
  ⟨h.1, fun s hs => pos_le_trans (h.2 s hs) hPQ⟩

/-- `_process_quote_token` keeps the span list sorted by closing position
and bounded by the current position (any span it appends closes exactly at
the current position). -/
theorem process_quote_token_spans_ok (qc : Char) (ti pi : Nat)
    (st : MatchState) (h : spans_ok st.spans (pi, (ti : Int))) :
    spans_ok (process_quote_token qc ti pi st).spans (pi, (ti : Int)) := by
  obtain ⟨stack, spans⟩ := st
  simp only [process_quote_token]
  cases stack with
  | nil =>
    simp only [List.isEmpty_nil]
    by_cases ho : qc ∈ OPENING_QUOTES
    · simp only [not_true, and_false, if_false, ho, if_pos]
      exact h
    · simp only [not_true, and_false, if_false, ho, if_neg, if_false]
      exact h
  | cons e rest =>
    obtain ⟨ep, et, ec⟩ := e
    by_cases hc : qc ∈ CLOSING_QUOTES
    · rw [if_pos ⟨hc, by simp⟩]
      constructor
      · rw [List.pairwise_append]
        refine ⟨h.1, List.pairwise_singleton _ _, ?_⟩
        intro a ha b hb
        rw [List.mem_singleton] at hb
        subst hb
        exact h.2 a ha
      · intro s hs
        rw [List.mem_append] at hs
        rcases hs with hs | hs
        · exact h.2 s hs
        · rw [List.mem_singleton] at hs
          subst hs
          exact Or.inr ⟨rfl, le_refl _⟩
    · rw [if_neg (by tauto)]
      by_cases ho : qc ∈ OPENING_QUOTES
      · rw [if_pos ho]
        exact h
      · rw [if_neg ho]
        exact h

/-- One extracted quote character keeps the span-list invariant. -/
theorem process_extracted_char_spans_ok (text : List Char)
    (tokens : List (List Char)) (pi ti : Nat) (st : MatchState) (qc : Char)
    (h : spans_ok st.spans (pi, (ti : Int))) :
    spans_ok (process_extracted_char text tokens pi ti st qc).spans
      (pi, (ti : Int)) := by
  unfold process_extracted_char
  by_cases h1 : qc ∈ SINGLE_QUOTE_FAMILY
  · rw [if_pos h1]
    by_cases h2 : apostrophe_skip qc text ti tokens = true
    · rw [if_pos h2]; exact h
    · rw [if_neg h2]; exact process_quote_token_spans_ok qc ti pi st h
  · rw [if_neg h1]
    exact process_quote_token_spans_ok qc ti pi st h

/-- One token keeps the span-list invariant at its own position. -/
theorem process_token_spans_ok (text : List Char)
    (tokens : List (List Char)) (pi : Nat) (st : MatchState)
    (x : Nat × List Char) (h : spans_ok st.spans (pi, (x.1 : Int))) :
    spans_ok (process_token text tokens pi st x).spans (pi, (x.1 : Int)) := by
  obtain ⟨ti, token⟩ := x
  simp only [process_token]
  by_cases h1 : is_quote_token token = true
  · rw [if_pos h1]
    exact process_quote_token_spans_ok _ ti pi st h
  · rw [if_neg h1]
    by_cases h2 : token.length > 1
    · rw [if_pos h2]
      by_cases h3 : token.getD 0 ' ' ∈ ALL_QUOTES ∨
          token.getD (token.length - 1) ' ' ∈ ALL_QUOTES
      · rw [if_pos h3]
        exact foldl_preserve _ (fun s => spans_ok s.spans (pi, (ti : Int)))
          (fun a b ha => process_extracted_char_spans_ok text tokens pi ti a b ha)
          (extract_quotes_from_token token) st h
      · rw [if_neg h3]
        exact h
    · rw [if_neg h2]
      exact h

/-- The token loop keeps the span-list invariant, moving the bound to one
past the last token index. -/
theorem foldl_process_token_spans_ok (text : List Char)
    (tokens : List (List Char)) (pi : Nat) :
    ∀ (l : List (List Char)) (n : Nat) (st : MatchState),
      spans_ok st.spans (pi, (n : Int)) →
      spans_ok ((List.enumFrom n l).foldl
        (process_token text tokens pi) st).spans
        (pi, ((n + l.length : Nat) : Int)) := by
  intro l
  induction l with
  | nil =>
    intro n st h
    simpa using h
  | cons tok rest ih =>
    intro n st h
    have hstep := process_token_spans_ok text tokens pi st (n, tok) h
    have hmono : spans_ok (process_token text tokens pi st (n, tok)).spans
        (pi, ((n + 1 : Nat) : Int)) := by
      apply spans_ok_mono hstep
      unfold pos_le
      right
      constructor
      · rfl
      · push_cast
        omega
    have hres := ih (n + 1) _ hmono
    have harith : ((n + 1 + rest.length : Nat) : Int) =
        ((n + (tok :: rest).length : Nat) : Int) := by
      push_cast
      simp
      omega
    rw [harith] at hres
    exact hres

/-- The paragraph loop keeps the span-list invariant. -/
theorem foldl_process_paragraph_spans_ok :
    ∀ (l : List Paragraph) (p : Nat) (st : MatchState),
      spans_ok st.spans (p, (0 : Int)) →
      spans_ok ((List.enumFrom p l).foldl process_paragraph st).spans
        ((p + l.length : Nat), (0 : Int)) := by
  intro l
  induction l with
  | nil =>
    intro p st h
    simpa using h
  | cons para rest ih =>
    intro p st h
    have hstep : spans_ok (process_paragraph st (p, para)).spans
        ((p + 1 : Nat), (0 : Int)) := by
      unfold process_paragraph
      by_cases hskip : ¬ quote_pattern_search para.text = true
      · rw [if_pos hskip]
        exact spans_ok_mono h (Or.inl (by omega))
      · rw [if_neg hskip]
        have hrun := foldl_process_token_spans_ok para.text para.tokens p
          para.tokens 0 st (by simpa using h)
        rw [List.enum]
        exact spans_ok_mono hrun (Or.inl (by omega))
    have hres := ih (p + 1) _ hstep
    have harith : (p + 1 + rest.length : Nat) = (p + (para :: rest).length : Nat) := by
      simp
      omega
    rw [harith] at hres
    exact hres

/-- The matcher's span list is sorted by closing position. -/
theorem run_matcher_sorted (paragraphs : List Paragraph) :
    List.Pairwise (fun a b => pos_le (close_pos a) (close_pos b))
      (run_matcher paragraphs).spans := by
  have h := foldl_process_paragraph_spans_ok paragraphs 0 ⟨[], []⟩
    ⟨List.Pairwise.nil, by intro s hs; exact absurd hs (List.not_mem_nil s)⟩
  unfold run_matcher
  rw [List.enum]
  exact h.1

/-- `find_quote_spans` is the matcher's span list followed by a tail of
unclosed-sentinel spans. -/
theorem find_quote_spans_split (config : QuoteBaselineConfig)
    (paragraphs : List Paragraph) :
    ∃ tail, find_quote_spans config paragraphs =
      (run_matcher paragraphs).spans ++ tail ∧
      ∀ s ∈ tail, s.end_token = -1 := by
  unfold find_quote_spans
  by_cases hg : config.handle_multi_paragraph = true ∧
      ¬ (run_matcher paragraphs).stack.isEmpty = true
  · refine ⟨(run_matcher paragraphs).stack.reverse.map (fun e =>
      ⟨e.1, paragraphs.length - 1, e.2.1, -1, e.2.2, false, 0⟩), ?_, ?_⟩
    · rw [if_pos hg]
    · intro s hs
      rw [List.mem_map] at hs
      obtain ⟨e, _, he⟩ := hs
      rw [← he]
  · refine ⟨[], ?_, by intro s hs; exact absurd hs (List.not_mem_nil s)⟩
    rw [if_neg hg, List.append_nil]

/-- A position not walked, or holding a delimiter token, is untouched by
the label-emission loop. -/
theorem mark_tokens_getD_unwritten (lab : String) (tokens : List (List Char)) :
    ∀ (idxs : List Nat) (bio : List BioLabel) (fc : Bool) (t : Nat),
      (t ∉ idxs ∨ is_quote_token (tokens.getD t []) = true) →
      (mark_tokens lab tokens idxs bio fc).getD t BioLabel.O =
        bio.getD t BioLabel.O := by
  intro idxs
  induction idxs with
  | nil => intro bio fc t _; rfl
  | cons ti rest ih =>
    intro bio fc t ht
    unfold mark_tokens
    by_cases hdel : is_quote_token (tokens.getD ti []) = true
    · rw [if_pos hdel]
      apply ih
      rcases ht with ht | ht
      · exact Or.inl (fun hm => ht (List.mem_cons_of_mem ti hm))
      · exact Or.inr ht
    · rw [if_neg hdel]
      have htne : ¬ ti = t := by
        intro he
        rcases ht with ht | ht
        · exact ht (he ▸ List.mem_cons_self ti rest)
        · rw [he] at hdel
          exact hdel ht
      have hrest : t ∉ rest ∨ is_quote_token (tokens.getD t []) = true := by
        rcases ht with ht | ht
        · exact Or.inl (fun hm => ht (List.mem_cons_of_mem ti hm))
        · exact Or.inr ht
      by_cases hfcb : fc = true
      · subst hfcb
        rw [if_pos rfl, ih _ _ _ hrest, getD_set_ne _ _ _ _ _ htne]
      · have hfcf : fc = false := by
          cases fc
          · rfl
          · exact absurd rfl hfcb
        subst hfcf
        simp only [Bool.false_eq_true, if_false]
        rw [ih _ _ _ hrest, getD_set_ne _ _ _ _ _ htne]

/-- At a walked content position, the label written by the emission loop
does not depend on the incoming label list (among lists of the same
length). -/
theorem mark_tokens_getD_write (lab : String) (tokens : List (List Char)) :
    ∀ (n s : Nat) (bio1 bio2 : List BioLabel) (fc : Bool) (t : Nat),
      bio1.length = bio2.length →
      (∀ t2 ∈ List.range' s n, t2 < bio1.length) →
      t ∈ List.range' s n →
      ¬ is_quote_token (tokens.getD t []) = true →
      (mark_tokens lab tokens (List.range' s n) bio1 fc).getD t BioLabel.O =
      (mark_tokens lab tokens (List.range' s n) bio2 fc).getD t BioLabel.O := by
  intro n
  induction n with
  | zero =>
    intro s bio1 bio2 fc t _ _ htm _
    exact absurd htm (by simp)
  | succ n ih =>
    intro s bio1 bio2 fc t hlen hb htm hcont
    have hrange : List.range' s (n + 1) = s :: List.range' (s + 1) n := rfl
    rw [hrange]
    rw [hrange] at htm hb
    have hs : s < bio1.length := hb s (List.mem_cons_self _ _)
    unfold mark_tokens
    by_cases hdel : is_quote_token (tokens.getD s []) = true
    · rw [if_pos hdel, if_pos hdel]
      have htrest : t ∈ List.range' (s + 1) n := by
        rcases List.mem_cons.mp htm with he | hm
        · exfalso
          rw [he] at hcont
          exact hcont hdel
        · exact hm
      exact ih (s + 1) bio1 bio2 fc t hlen
        (fun t2 h2 => hb t2 (List.mem_cons_of_mem _ h2)) htrest hcont
    · rw [if_neg hdel, if_neg hdel]
      have hnotrest : ∀ (bio : List BioLabel) (v : BioLabel),
          s ∉ List.range' (s + 1) n := by
        intro _ _ hm
        rw [List.mem_range'_1] at hm
        omega
      by_cases hts : t = s
      · subst hts
        have hs2 : t < bio2.length := hlen ▸ hs
        by_cases hfcb : fc = true
        · subst hfcb
          rw [if_pos rfl, if_pos rfl]
          rw [mark_tokens_getD_unwritten lab tokens _ (bio1.set t (BioLabel.B lab))
              _ t (Or.inl (hnotrest bio1 (BioLabel.B lab))),
            mark_tokens_getD_unwritten lab tokens _ (bio2.set t (BioLabel.B lab))
              _ t (Or.inl (hnotrest bio2 (BioLabel.B lab))),
            getD_set_self _ _ _ _ hs, getD_set_self _ _ _ _ hs2]
        · have hfcf : fc = false := by
            cases fc
            · rfl
            · exact absurd rfl hfcb
          subst hfcf
          simp only [Bool.false_eq_true, if_false]
          rw [mark_tokens_getD_unwritten lab tokens _ (bio1.set t (BioLabel.I lab))
              _ t (Or.inl (hnotrest bio1 (BioLabel.I lab))),
            mark_tokens_getD_unwritten lab tokens _ (bio2.set t (BioLabel.I lab))
              _ t (Or.inl (hnotrest bio2 (BioLabel.I lab))),
            getD_set_self _ _ _ _ hs, getD_set_self _ _ _ _ hs2]
      · have htrest : t ∈ List.range' (s + 1) n := by
          rcases List.mem_cons.mp htm with he | hm
          · exact absurd he hts
          · exact hm
        have hblen : ∀ (v : BioLabel),
            (bio1.set s v).length = (bio2.set s v).length := by
          intro v
          rw [List.length_set, List.length_set, hlen]
        have hbmem : ∀ (v : BioLabel), ∀ t2 ∈ List.range' (s + 1) n,
            t2 < (bio1.set s v).length := by
          intro v t2 h2
          rw [List.length_set]
          exact hb t2 (List.mem_cons_of_mem _ h2)
        by_cases hfcb : fc = true
        · subst hfcb
          rw [if_pos rfl, if_pos rfl]
          exact ih (s + 1) _ _ false t (hblen _) (hbmem _) htrest hcont
        · have hfcf : fc = false := by
            cases fc
            · rfl
            · exact absurd rfl hfcb
          subst hfcf
          simp only [Bool.false_eq_true, if_false]
          exact ih (s + 1) _ _ false t (hblen _) (hbmem _) htrest hcont

/-- A span's application leaves unwritten positions unchanged. -/
theorem apply_span_getD_unwritten (lab : String) (tokens : List (List Char))
    (para_idx : Nat) (bio : List BioLabel) (s : Span) (t : Nat)
    (hw : ¬ writes tokens para_idx s t) :
    (apply_span lab tokens para_idx bio s).getD t BioLabel.O =
      bio.getD t BioLabel.O := by
  unfold apply_span
  apply mark_tokens_getD_unwritten
  unfold writes at hw
  by_cases hm : t ∈ span_range tokens para_idx s
  · right
    by_contra hc
    exact hw ⟨hm, hc⟩
  · exact Or.inl hm

/-- A span's application writes the same label at a written position
whatever the incoming label list (of matching length). -/
theorem apply_span_getD_write (lab : String) (tokens : List (List Char))
    (para_idx : Nat) (bio1 bio2 : List BioLabel) (s : Span) (t : Nat)
    (hl1 : bio1.length = tokens.length) (hl2 : bio2.length = tokens.length)
    (hw : writes tokens para_idx s t) :
    (apply_span lab tokens para_idx bio1 s).getD t BioLabel.O =
    (apply_span lab tokens para_idx bio2 s).getD t BioLabel.O := by
  unfold apply_span span_range
  apply mark_tokens_getD_write lab tokens _ _ bio1 bio2 true t
    (by rw [hl1, hl2]) ?_ ?_ hw.2
  · intro t2 h2
    rw [hl1]
    exact span_range_lt tokens para_idx s t2 h2
  · exact hw.1

/-- Folding spans: the final label at `t` does not depend on the incoming
label list once some span in the list writes `t`. -/
theorem foldl_apply_span_getD_override (lab : String)
    (tokens : List (List Char)) (para_idx : Nat) :
    ∀ (l : List Span) (bio1 bio2 : List BioLabel) (t : Nat),
      bio1.length = tokens.length → bio2.length = tokens.length →
      (bio1.getD t BioLabel.O = bio2.getD t BioLabel.O ∨
        ∃ s ∈ l, writes tokens para_idx s t) →
      (l.foldl (apply_span lab tokens para_idx) bio1).getD t BioLabel.O =
      (l.foldl (apply_span lab tokens para_idx) bio2).getD t BioLabel.O := by
  intro l
  induction l with
  | nil =>
    intro bio1 bio2 t _ _ h
    rcases h with h | ⟨s, hs, _⟩
    · exact h
    · exact absurd hs (List.not_mem_nil s)
  | cons sp rest ih =>
    intro bio1 bio2 t hl1 hl2 h
    rw [List.foldl_cons, List.foldl_cons]
    have hl1s : (apply_span lab tokens para_idx bio1 sp).length = tokens.length := by
      rw [apply_span_length, hl1]
    have hl2s : (apply_span lab tokens para_idx bio2 sp).length = tokens.length := by
      rw [apply_span_length, hl2]
    by_cases hw : writes tokens para_idx sp t
    · exact ih _ _ t hl1s hl2s
        (Or.inl (apply_span_getD_write lab tokens para_idx bio1 bio2 sp t
          hl1 hl2 hw))
    · apply ih _ _ t hl1s hl2s
      rcases h with h | ⟨s, hs, hws⟩
      · left
        rw [apply_span_getD_unwritten _ _ _ _ _ _ hw,
          apply_span_getD_unwritten _ _ _ _ _ _ hw]
        exact h
      · rcases List.mem_cons.mp hs with he | hm
        · exact absurd (he ▸ hws) hw
        · exact Or.inr ⟨s, hm, hws⟩

/-- C10 (amended): spans are appended in closing order, so a closed span
strictly properly nested inside another closed span appears earlier in the
final span list; and in the projector the spans of a paragraph are applied
in that list order with later writes winning: once any span of a suffix
writes a token, the labels contributed by earlier spans at that token are
irrelevant.  (When nested spans open in the same paragraph the outer span
therefore rewrites the inner span's B label on their shared content
tokens; spans opening in different paragraphs never share written tokens,
as `c10_counterexample` shows.) -/
theorem c10_amended_order_and_override (config : QuoteBaselineConfig)
    (paragraphs : List Paragraph) :
    (∀ (a b : Nat) (sa sb : Span),
       (find_quote_spans config paragraphs)[a]? = some sa →
       (find_quote_spans config paragraphs)[b]? = some sb →
       closed_span sa → closed_span sb →
       properly_nested sa sb →
       a < b) ∧
    (∀ (lab : String) (tokens : List (List Char)) (p : Nat)
       (l1 l2 : List Span) (bio : List BioLabel) (t : Nat),
       bio.length = tokens.length →
       (∃ s ∈ l2, writes tokens p s t) →
       ((l1 ++ l2).foldl (apply_span lab tokens p) bio).getD t BioLabel.O =
       (l2.foldl (apply_span lab tokens p) bio).getD t BioLabel.O) := by
  constructor
  · intro a b sa sb hga hgb hca hcb hnest
    obtain ⟨tail, hsplit, htail⟩ := find_quote_spans_split config paragraphs
    have hsorted := run_matcher_sorted paragraphs
    set A := (run_matcher paragraphs).spans with hA
    rw [hsplit] at hga hgb
    have hclosed_lt : ∀ (i : Nat) (si : Span), (A ++ tail)[i]? = some si →
        closed_span si → i < A.length ∧ A[i]? = some si := by
      intro i si hgi hci
      by_cases hiA : i < A.length
      · rw [List.getElem?_append, if_pos hiA] at hgi
        exact ⟨hiA, hgi⟩
      · exfalso
        rw [List.getElem?_append, if_neg hiA] at hgi
        have hmem : si ∈ tail := List.getElem?_mem hgi
        have := htail _ hmem
        unfold closed_span at hci
        omega
    obtain ⟨haA, hgaA⟩ := hclosed_lt a sa hga hca
    obtain ⟨hbA, hgbA⟩ := hclosed_lt b sb hgb hcb
    have hsa : A.get ⟨a, haA⟩ = sa := by
      have h1 := List.getElem?_eq_getElem haA
      rw [h1] at hgaA
      have h2 := Option.some.inj hgaA
      simpa [List.get_eq_getElem] using h2
    have hsb : A.get ⟨b, hbA⟩ = sb := by
      have h1 := List.getElem?_eq_getElem hbA
      rw [h1] at hgbA
      have h2 := Option.some.inj hgbA
      simpa [List.get_eq_getElem] using h2
    have hpw := List.pairwise_iff_get.mp hsorted
    by_contra hab
    rcases Nat.lt_or_ge b a with hlt | hge
    · have hrel := hpw ⟨b, hbA⟩ ⟨a, haA⟩ hlt
      rw [hsa, hsb] at hrel
      exact pos_lt_not_le hnest.2 hrel
    · have heq : a = b := by omega
      subst heq
      have hsame : sa = sb := by rw [← hsa, ← hsb]
      subst hsame
      exact pos_lt_not_le hnest.2 (Or.inr ⟨rfl, le_refl _⟩)
  · intro lab tokens p l1 l2 bio t hlen hex
    rw [List.foldl_append]
    apply foldl_apply_span_getD_override lab tokens p l2 _ bio t ?_ hlen
      (Or.inr hex)
    rw [foldl_apply_span_length, hlen]

/-- Witness for `c10_amended_order_and_override`: the nested pair of
`c10doc` (inner at index 0, outer at index 1) satisfies the ordering
conclusion, and a second span writing token 3 of a two-span bucket
overrides the first span's write there. -/
theorem c10_amended_witness :
    (0 : Nat) < 1 ∧
    (([⟨0, 0, 0, 4, STRAIGHT_DOUBLE_QUOTE, false, 0⟩] ++
        [⟨0, 0, 2, 4, LEFT_GUILLEMET, false, 0⟩] :
        List Span).foldl
      (apply_span "DIRECT" [['a'], ['b'], ['c'], ['d'], ['e']] 0)
      (List.replicate 5 BioLabel.O)).getD 3 BioLabel.O =
    (([⟨0, 0, 2, 4, LEFT_GUILLEMET, false, 0⟩] : List Span).foldl
      (apply_span "DIRECT" [['a'], ['b'], ['c'], ['d'], ['e']] 0)
      (List.replicate 5 BioLabel.O)).getD 3 BioLabel.O := by
  constructor
  · exact (c10_amended_order_and_override defaultConfig c10doc).1 0 1
      ⟨1, 1, 0, 2, LEFT_GUILLEMET, true, 1⟩
      ⟨0, 1, 0, 4, STRAIGHT_DOUBLE_QUOTE, false, 0⟩
      (by decide) (by decide) (by decide) (by decide) (by decide)
  · exact (c10_amended_order_and_override defaultConfig c10doc).2 "DIRECT"
      [['a'], ['b'], ['c'], ['d'], ['e']] 0
      [⟨0, 0, 0, 4, STRAIGHT_DOUBLE_QUOTE, false, 0⟩]
      [⟨0, 0, 2, 4, LEFT_GUILLEMET, false, 0⟩]
      (List.replicate 5 BioLabel.O) 3 (by decide)
      ⟨⟨0, 0, 2, 4, LEFT_GUILLEMET, false, 0⟩, by decide, by decide⟩

end QuoteBaseline
